import Mathlib

/-!
A shallow embedding of `migrate.go` from trinio-labs/mongo-migrate.

The document store is modelled as an explicit state (`St`) threaded through
every operation: the list of containers reported by `ListCollections`, the
content of the history collection in insertion order, a clock used to stamp
records, and a model of `InsertOne` transport failures.  Store reads
(`ListCollections`, `FindOne`) are modelled as reliable; the driver's
`ErrNoDocuments` outcome corresponds to an empty history.  A migration
action is modelled by the outcome it produces when invoked (`none` =
success, `some e` = failure), and every invocation is recorded in an
observation trace, as is every `create` collection command.
-/

namespace MongoMigrate

/-- Errors returned by the store (`InsertOne`) or by migration actions. -/
abbrev Err := String

/-- `collectionSpecification` from migrate.go (the `Type` field is named
`Type'` because `Type` is reserved in Lean). -/
structure collectionSpecification where
  Name : String
  Type' : String
deriving DecidableEq, Repr

/-- `versionRecord` from migrate.go; timestamps are abstract instants. -/
structure versionRecord where
  Version : Nat
  Description : String
  Timestamp : Nat
deriving DecidableEq, Repr

/-- Modelled from the spec: the `Migration` type is declared in this
repository outside `migrate.go` (only its uses are under src/).  Spec §3:
`version` (unsigned integer), `description` (free text), `up` (optional
forward action), `down` (optional backward action).  An action performs
arbitrary effects and can fail; it is modelled here by the outcome it
produces when invoked: field value `none` means the action is nil, `some
none` an action that succeeds, `some (some e)` an action that fails with
error `e`. -/
structure Migration where
  Version : Nat
  Description : String
  Up : Option (Option Err)
  Down : Option (Option Err)
deriving DecidableEq, Repr

/-- Observable events of a run: invocations of forward/backward actions
(carrying the migration invoked) and issued `create` collection commands. -/
inductive Event where
  | upAction (mg : Migration)
  | downAction (mg : Migration)
  | createCollection (name : String)
deriving DecidableEq, Repr

/-- The document-store state visible to migrate.go, plus the observation
trace.  `history` is the content of the migrations collection in insertion
order (latest record last, matching the sort on `_id` descending);
`insertFail` models `InsertOne` transport failures, keyed by the number of
records already stored. -/
structure St where
  collections : List collectionSpecification
  history : List versionRecord
  trace : List Event
  now : Nat
  insertFail : Nat → Option Err

/-- `Migrate` from migrate.go: the registry and the configured history
collection name (the db handle is the `St` state; the logger only prints). -/
structure Migrate where
  migrations : List Migration
  migrationsCollection : String

def defaultMigrationsCollection : String := "migrations"

/-- `AllAvailable` from migrate.go. -/
def AllAvailable : Int := -1

/-- `NewMigrate`: registry as given, default history collection name. -/
def NewMigrate (migrations : List Migration) : Migrate :=
  { migrations := migrations, migrationsCollection := defaultMigrationsCollection }

/-- `SetMigrationsCollection`. -/
def Migrate.SetMigrationsCollection (m : Migrate) (name : String) : Migrate :=
  { m with migrationsCollection := name }

/-- `Migrate.getCollections`: list every container and keep those whose
type is empty or `"collection"` (migrate.go line 117). -/
def Migrate.getCollections (_m : Migrate) (st : St) : List collectionSpecification :=
  st.collections.filter (fun c => c.Type'.length == 0 || c.Type' == "collection")

/-- `Migrate.isCollectionExist`: scan the listed collections for the name. -/
def Migrate.isCollectionExist (m : Migrate) (name : String) (st : St) : Bool :=
  (m.getCollections st).any (fun c => name == c.Name)

/-- `Migrate.createCollectionIfNotExist`: no-op when present, otherwise run
the `create` command (modelled as adding a container of type
`"collection"` and emitting a `createCollection` event). -/
def Migrate.createCollectionIfNotExist (m : Migrate) (name : String) (st : St) : St :=
  if m.isCollectionExist name st then st
  else { st with
    collections := st.collections ++ [⟨name, "collection"⟩],
    trace := st.trace ++ [Event.createCollection name] }

/-- The version/description pair encoded by a history: the latest record's
fields, or `(0, "")` when there is none (the `ErrNoDocuments` branch). -/
def latestOf (h : List versionRecord) : Nat × String :=
  match h.getLast? with
  | none => (0, "")
  | some r => (r.Version, r.Description)

/-- `Migrate.Version`: bootstrap the history collection, then read the most
recently inserted record; no record is the distinguished `(0, "", nil)`
outcome. -/
def Migrate.Version (m : Migrate) (st : St) : Except Err (Nat × String) × St :=
  let st1 := m.createCollectionIfNotExist m.migrationsCollection st
  match st1.history.getLast? with
  | none => (Except.ok (0, ""), st1)
  | some r => (Except.ok (r.Version, r.Description), st1)

/-- `Migrate.SetVersion`: unconditionally insert one record stamped with
the current clock; an `InsertOne` failure leaves the history unchanged. -/
def Migrate.SetVersion (m : Migrate) (version : Nat) (description : String) (st : St) :
    Option Err × St :=
  let r : versionRecord := ⟨version, description, st.now⟩
  match st.insertFail st.history.length with
  | some e => (some e, st)
  | none => (none, { st with history := st.history ++ [r] })

/-- Insert a migration before the first element whose version is not
smaller, keeping the relative order of the existing elements. -/
def insertSorted (mg : Migration) : List Migration → List Migration
  | [] => [mg]
  | x :: rest =>
    if x.Version < mg.Version then x :: insertSorted mg rest
    else mg :: x :: rest

/-- Modelled from the spec: `migrationSort` is declared in this repository
outside `migrate.go`.  Spec §4.4: "Sort Registry ascending by version
(stable, deterministic total order)" — a stable insertion sort ascending
by version (an earlier registry entry ends up before every equal-version
later entry). -/
def migrationSort : List Migration → List Migration
  | [] => []
  | mg :: rest => insertSorted mg (migrationSort rest)

/-- The clamping of the step count in Up/Down (migrate.go lines 181-183 and
212-214): non-positive or oversized budgets become the registry size. -/
def clampSteps (n : Int) (len : Nat) : Nat :=
  if n ≤ 0 ∨ n > (len : Int) then len else n.toNat

/-- The Up loop (migrate.go lines 186-200): scan ascending, skip
migrations at or below the current version or with a nil forward action,
otherwise spend one budget step: invoke the action, then record the
migration's version, stopping at the first error. -/
def Migrate.upGo (m : Migrate) (v : Nat) :
    List Migration → Nat → St → Option Err × St
  | [], _, st => (none, st)
  | _ :: _, 0, st => (none, st)
  | mg :: rest, b + 1, st =>
    match mg.Up with
    | none => m.upGo v rest (b + 1) st
    | some act =>
      if mg.Version ≤ v then m.upGo v rest (b + 1) st
      else
        let st1 := { st with trace := st.trace ++ [Event.upAction mg] }
        match act with
        | some e => (some e, st1)
        | none =>
          match m.SetVersion mg.Version mg.Description st1 with
          | (some e, st2) => (some e, st2)
          | (none, st2) => m.upGo v rest b st2

/-- `Migrate.Up` (migrate.go lines 176-202). -/
def Migrate.Up (m : Migrate) (n : Int) (st : St) : Option Err × St :=
  match m.Version st with
  | (Except.error e, st1) => (some e, st1)
  | (Except.ok (currentVersion, _), st1) =>
    m.upGo currentVersion (migrationSort m.migrations)
      (clampSteps n m.migrations.length) st1

/-- Pair each migration of a (sorted) list with its predecessor in that
list; the first element is paired with the zero value `Migration{Version:
0}` (migrate.go lines 227-232). -/
def withPrev (ms : List Migration) : List (Migration × Migration) :=
  ms.zip (⟨0, "", none, none⟩ :: ms)

/-- The Down loop (migrate.go lines 217-238) over the sorted list scanned
descending: skip migrations above the current version or with a nil
backward action, otherwise invoke the action and record the preceding
migration's version and description. -/
def Migrate.downGo (m : Migrate) (v : Nat) :
    List (Migration × Migration) → Nat → St → Option Err × St
  | [], _, st => (none, st)
  | _ :: _, 0, st => (none, st)
  | (mg, prev) :: rest, b + 1, st =>
    match mg.Down with
    | none => m.downGo v rest (b + 1) st
    | some act =>
      if mg.Version > v then m.downGo v rest (b + 1) st
      else
        let st1 := { st with trace := st.trace ++ [Event.downAction mg] }
        match act with
        | some e => (some e, st1)
        | none =>
          match m.SetVersion prev.Version prev.Description st1 with
          | (some e, st2) => (some e, st2)
          | (none, st2) => m.downGo v rest b st2

/-- `Migrate.Down` (migrate.go lines 207-240). -/
def Migrate.Down (m : Migrate) (n : Int) (st : St) : Option Err × St :=
  match m.Version st with
  | (Except.error e, st1) => (some e, st1)
  | (Except.ok (currentVersion, _), st1) =>
    m.downGo currentVersion ((withPrev (migrationSort m.migrations)).reverse)
      (clampSteps n m.migrations.length) st1

/-- Eligibility for Up at current version `v` (migrate.go line 188). -/
def eligUp (v : Nat) (mg : Migration) : Bool :=
  decide (v < mg.Version) && mg.Up.isSome

/-- Eligibility for Down at current version `v` (migrate.go line 219),
on a migration paired with its predecessor. -/
def eligDown (v : Nat) (p : Migration × Migration) : Bool :=
  decide (p.1.Version ≤ v) && p.1.Down.isSome

/-- The record an applied Up step appends: the migration's own version and
description (migrate.go line 195). -/
def upRecord (now : Nat) (mg : Migration) : versionRecord :=
  ⟨mg.Version, mg.Description, now⟩

/-- The record an applied Down step appends: the preceding migration's
version and description (migrate.go line 233). -/
def downRecord (now : Nat) (p : Migration × Migration) : versionRecord :=
  ⟨p.2.Version, p.2.Description, now⟩

/-- Bootstrapping performed at the start of every `Version` call. -/
def Migrate.ensureHistory (m : Migrate) (st : St) : St :=
  m.createCollectionIfNotExist m.migrationsCollection st

/-- The Up loop specialised to an already-eligible batch: invoke each
action in order and record its version, stopping at the first error.
`upGo` reduces to this on the filtered, budget-truncated registry. -/
def Migrate.applyUp (m : Migrate) : List Migration → St → Option Err × St
  | [], st => (none, st)
  | mg :: rest, st =>
    match mg.Up with
    | none => m.applyUp rest st
    | some act =>
      let st1 := { st with trace := st.trace ++ [Event.upAction mg] }
      match act with
      | some e => (some e, st1)
      | none =>
        match m.SetVersion mg.Version mg.Description st1 with
        | (some e, st2) => (some e, st2)
        | (none, st2) => m.applyUp rest st2

/-- The Down loop specialised to an already-eligible batch of migrations
paired with their predecessors. -/
def Migrate.applyDown (m : Migrate) : List (Migration × Migration) → St → Option Err × St
  | [], st => (none, st)
  | (mg, prev) :: rest, st =>
    match mg.Down with
    | none => m.applyDown rest st
    | some act =>
      let st1 := { st with trace := st.trace ++ [Event.downAction mg] }
      match act with
      | some e => (some e, st1)
      | none =>
        match m.SetVersion prev.Version prev.Description st1 with
        | (some e, st2) => (some e, st2)
        | (none, st2) => m.applyDown rest st2

/-- An `InsertOne` failure model under which every insert succeeds. -/
def noFail : Nat → Option Err := fun _ => none

/-- A fresh database: no containers, no history. -/
def sampleSt : St :=
  { collections := [], history := [], trace := [], now := 7, insertFail := noFail }

def mgOne : Migration := ⟨1, "one", some none, some none⟩

def mgTwo : Migration := ⟨2, "two", some none, some none⟩

def mgThreeNoUp : Migration := ⟨3, "three", none, some none⟩

def mgFourBoom : Migration := ⟨4, "four", some (some "boom"), some (some "boom")⟩

/-- A registry handed over out of order, exercising the sort. -/
def sampleM : Migrate := NewMigrate [mgTwo, mgOne]

/-- A database already at version 1 with the history collection present. -/
def sampleStV1 : St :=
  { collections := [⟨"migrations", "collection"⟩],
    history := [⟨1, "one", 0⟩], trace := [], now := 7, insertFail := noFail }

/-- A database already at version 2 with the history collection present. -/
def sampleStV2 : St :=
  { collections := [⟨"migrations", "collection"⟩],
    history := [⟨1, "one", 0⟩, ⟨2, "two", 1⟩], trace := [], now := 9,
    insertFail := noFail }

/-- A registry whose second migration's forward action fails. -/
def sampleMF : Migrate := NewMigrate [mgFourBoom, mgOne]

/-- A one-migration registry, with both actions defined. -/
def sampleM1 : Migrate := NewMigrate [mgOne]

/-- A registry containing a migration with a nil forward action. -/
def sampleMSkip : Migrate := NewMigrate [mgThreeNoUp, mgOne]

def mgTwoNoDown : Migration := ⟨2, "two", some none, none⟩

/-- A registry containing a migration with a nil backward action. -/
def sampleMSkipDown : Migrate := NewMigrate [mgTwoNoDown, mgOne]

/-- A database where a view bears the history collection name. -/
def viewSt : St :=
  { collections := [⟨"migrations", "view"⟩], history := [], trace := [],
    now := 0, insertFail := noFail }

/-! ### Basic lemmas about the store operations -/

theorem ensureHistory_history (m : Migrate) (st : St) :
    (m.ensureHistory st).history = st.history := by
  unfold Migrate.ensureHistory Migrate.createCollectionIfNotExist
  split <;> rfl

theorem ensureHistory_now (m : Migrate) (st : St) :
    (m.ensureHistory st).now = st.now := by
  unfold Migrate.ensureHistory Migrate.createCollectionIfNotExist
  split <;> rfl

theorem ensureHistory_insertFail (m : Migrate) (st : St) :
    (m.ensureHistory st).insertFail = st.insertFail := by
  unfold Migrate.ensureHistory Migrate.createCollectionIfNotExist
  split <;> rfl

theorem ensureHistory_of_exist (m : Migrate) (st : St)
    (h : m.isCollectionExist m.migrationsCollection st = true) :
    m.ensureHistory st = st := by
  unfold Migrate.ensureHistory Migrate.createCollectionIfNotExist
  rw [if_pos h]

theorem isCollectionExist_ensureHistory (m : Migrate) (st : St) :
    m.isCollectionExist m.migrationsCollection (m.ensureHistory st) = true := by
  unfold Migrate.ensureHistory Migrate.createCollectionIfNotExist
  split
  · assumption
  · unfold Migrate.isCollectionExist Migrate.getCollections
    simp

theorem Version_eq (m : Migrate) (st : St) :
    m.Version st = (Except.ok (latestOf st.history), m.ensureHistory st) := by
  simp only [Migrate.Version, latestOf, Migrate.ensureHistory]
  rw [show (m.createCollectionIfNotExist m.migrationsCollection st).history
      = st.history from ensureHistory_history m st]
  cases st.history.getLast? <;> rfl

/-! ### The scanning loops reduce to running the eligible batch -/

theorem upGo_eq (m : Migrate) (v : Nat) :
    ∀ (ms : List Migration) (b : Nat) (st : St),
      m.upGo v ms b st = m.applyUp ((ms.filter (eligUp v)).take b) st := by
  intro ms
  induction ms with
  | nil => intro b st; cases b <;> simp [Migrate.upGo, Migrate.applyUp]
  | cons mg rest ih =>
    intro b st
    cases b with
    | zero => simp [Migrate.upGo, Migrate.applyUp]
    | succ b =>
      by_cases hup : mg.Up = none
      · have he : eligUp v mg = false := by simp [eligUp, hup]
        simp only [Migrate.upGo, hup, List.filter_cons, he, Bool.false_eq_true,
          if_false, ih]
      · obtain ⟨act, hact⟩ := Option.ne_none_iff_exists'.mp hup
        by_cases hle : mg.Version ≤ v
        · have he : eligUp v mg = false := by
            simp [eligUp, Nat.not_lt.mpr hle]
          simp only [Migrate.upGo, hact, if_pos hle, List.filter_cons, he,
            Bool.false_eq_true, if_false, ih]
        · have he : eligUp v mg = true := by
            simp [eligUp, hact, Nat.lt_of_not_le hle]
          simp only [Migrate.upGo, hact, if_neg hle, List.filter_cons, he,
            if_true, List.take_succ_cons, Migrate.applyUp]
          cases act with
          | some e => rfl
          | none =>
            cases hsv : m.SetVersion mg.Version mg.Description
                { st with trace := st.trace ++ [Event.upAction mg] } with
            | mk r st2 => cases r <;> simp [ih]

theorem downGo_eq (m : Migrate) (v : Nat) :
    ∀ (ps : List (Migration × Migration)) (b : Nat) (st : St),
      m.downGo v ps b st = m.applyDown ((ps.filter (eligDown v)).take b) st := by
  intro ps
  induction ps with
  | nil => intro b st; cases b <;> simp [Migrate.downGo, Migrate.applyDown]
  | cons p rest ih =>
    obtain ⟨mg, prev⟩ := p
    intro b st
    cases b with
    | zero => simp [Migrate.downGo, Migrate.applyDown]
    | succ b =>
      by_cases hdn : mg.Down = none
      · have he : eligDown v (mg, prev) = false := by simp [eligDown, hdn]
        simp only [Migrate.downGo, hdn, List.filter_cons, he, Bool.false_eq_true,
          if_false, ih]
      · obtain ⟨act, hact⟩ := Option.ne_none_iff_exists'.mp hdn
        by_cases hgt : mg.Version > v
        · have he : eligDown v (mg, prev) = false := by
            simp [eligDown, Nat.not_le.mpr hgt]
          simp only [Migrate.downGo, hact, if_pos hgt, List.filter_cons, he,
            Bool.false_eq_true, if_false, ih]
        · have he : eligDown v (mg, prev) = true := by
            simp [eligDown, hact, Nat.not_lt.mp hgt]
          simp only [Migrate.downGo, hact, if_neg hgt, List.filter_cons, he,
            if_true, List.take_succ_cons, Migrate.applyDown]
          cases act with
          | some e => rfl
          | none =>
            cases hsv : m.SetVersion prev.Version prev.Description
                { st with trace := st.trace ++ [Event.downAction mg] } with
            | mk r st2 => cases r <;> simp [ih]

/-! ### Characterization of running a batch -/

theorem applyUp_success (m : Migrate) :
    ∀ (L : List Migration) (st : St),
      (∀ mg ∈ L, mg.Up = some none) →
      (∀ j, j < L.length → st.insertFail (st.history.length + j) = none) →
      m.applyUp L st =
        (none, { st with history := st.history ++ L.map (upRecord st.now),
                         trace := st.trace ++ L.map Event.upAction }) := by
  intro L
  induction L with
  | nil => intro st _ _; simp [Migrate.applyUp]
  | cons mg rest ih =>
    intro st hacts hins
    have hup : mg.Up = some none := hacts mg (by simp)
    have h0 : st.insertFail st.history.length = none := by
      simpa using hins 0 (by simp)
    simp only [Migrate.applyUp, hup, Migrate.SetVersion, h0]
    rw [ih _ (fun x hx => hacts x (List.mem_cons_of_mem _ hx))
      (by intro j hj
          simpa [Nat.add_assoc, Nat.add_comm 1 j] using
            hins (j + 1) (by simpa using Nat.succ_lt_succ hj))]
    simp [upRecord]

theorem applyDown_success (m : Migrate) :
    ∀ (L : List (Migration × Migration)) (st : St),
      (∀ p ∈ L, p.1.Down = some none) →
      (∀ j, j < L.length → st.insertFail (st.history.length + j) = none) →
      m.applyDown L st =
        (none, { st with history := st.history ++ L.map (downRecord st.now),
                         trace := st.trace ++ L.map (fun p => Event.downAction p.1) }) := by
  intro L
  induction L with
  | nil => intro st _ _; simp [Migrate.applyDown]
  | cons p rest ih =>
    obtain ⟨mg, prev⟩ := p
    intro st hacts hins
    have hdn : mg.Down = some none := hacts (mg, prev) (by simp)
    have h0 : st.insertFail st.history.length = none := by
      simpa using hins 0 (by simp)
    simp only [Migrate.applyDown, hdn, Migrate.SetVersion, h0]
    rw [ih _ (fun x hx => hacts x (List.mem_cons_of_mem _ hx))
      (by intro j hj
          simpa [Nat.add_assoc, Nat.add_comm 1 j] using
            hins (j + 1) (by simpa using Nat.succ_lt_succ hj))]
    simp [downRecord]

theorem applyUp_failure (m : Migrate) :
    ∀ (L1 : List Migration) (mg : Migration) (L2 : List Migration) (st : St) (e : Err),
      (∀ x ∈ L1, x.Up = some none) →
      (∀ j, j < L1.length → st.insertFail (st.history.length + j) = none) →
      (mg.Up = some (some e)
        ∨ (mg.Up = some none ∧ st.insertFail (st.history.length + L1.length) = some e)) →
      m.applyUp (L1 ++ mg :: L2) st =
        (some e, { st with
            history := st.history ++ L1.map (upRecord st.now),
            trace := st.trace ++ L1.map Event.upAction ++ [Event.upAction mg] }) := by
  intro L1
  induction L1 with
  | nil =>
    intro mg L2 st e _ _ hfail
    rcases hfail with hf | ⟨hf, hins0⟩
    · simp [Migrate.applyUp, hf]
    · simp only [List.nil_append, Migrate.applyUp, hf, Migrate.SetVersion]
      simp only [List.length_nil, Nat.add_zero] at hins0
      simp [hins0]
  | cons x L1 ih =>
    intro mg L2 st e hacts hins hfail
    have hup : x.Up = some none := hacts x (by simp)
    have h0 : st.insertFail st.history.length = none := by
      simpa using hins 0 (by simp)
    simp only [List.cons_append, Migrate.applyUp, hup, Migrate.SetVersion, h0,
      List.append_eq]
    rw [ih mg L2 _ e (fun y hy => hacts y (List.mem_cons_of_mem _ hy))
      (by intro j hj
          simpa [Nat.add_assoc, Nat.add_comm 1 j] using
            hins (j + 1) (by simpa using Nat.succ_lt_succ hj))
      (by rcases hfail with hf | ⟨hf, hrest⟩
          · exact Or.inl hf
          · refine Or.inr ⟨hf, ?_⟩
            simpa [Nat.add_assoc, Nat.add_comm 1 L1.length] using hrest)]
    simp [upRecord]

theorem applyDown_failure (m : Migrate) :
    ∀ (L1 : List (Migration × Migration)) (p : Migration × Migration)
      (L2 : List (Migration × Migration)) (st : St) (e : Err),
      (∀ x ∈ L1, x.1.Down = some none) →
      (∀ j, j < L1.length → st.insertFail (st.history.length + j) = none) →
      (p.1.Down = some (some e)
        ∨ (p.1.Down = some none ∧ st.insertFail (st.history.length + L1.length) = some e)) →
      m.applyDown (L1 ++ p :: L2) st =
        (some e, { st with
            history := st.history ++ L1.map (downRecord st.now),
            trace := st.trace ++ L1.map (fun q => Event.downAction q.1)
              ++ [Event.downAction p.1] }) := by
  intro L1
  induction L1 with
  | nil =>
    intro p L2 st e _ _ hfail
    obtain ⟨mg, prev⟩ := p
    rcases hfail with hf | ⟨hf, hins0⟩
    · simp at hf
      simp [Migrate.applyDown, hf]
    · simp at hf
      simp only [List.nil_append, Migrate.applyDown, hf, Migrate.SetVersion]
      simp only [List.length_nil, Nat.add_zero] at hins0
      simp [hins0]
  | cons x L1 ih =>
    intro p L2 st e hacts hins hfail
    obtain ⟨mg, prev⟩ := x
    have hdn : mg.Down = some none := hacts (mg, prev) (by simp)
    have h0 : st.insertFail st.history.length = none := by
      simpa using hins 0 (by simp)
    simp only [List.cons_append, Migrate.applyDown, hdn, Migrate.SetVersion, h0,
      List.append_eq]
    rw [ih p L2 _ e (fun y hy => hacts y (List.mem_cons_of_mem _ hy))
      (by intro j hj
          simpa [Nat.add_assoc, Nat.add_comm 1 j] using
            hins (j + 1) (by simpa using Nat.succ_lt_succ hj))
      (by rcases hfail with hf | ⟨hf, hrest⟩
          · exact Or.inl hf
          · refine Or.inr ⟨hf, ?_⟩
            simpa [Nat.add_assoc, Nat.add_comm 1 L1.length] using hrest)]
    simp [downRecord]

theorem applyUp_shape (m : Migrate) :
    ∀ (L : List Migration) (st : St),
      ((m.applyUp L st).2.collections = st.collections
        ∧ (m.applyUp L st).2.now = st.now
        ∧ (m.applyUp L st).2.insertFail = st.insertFail)
      ∧ (∃ t, (m.applyUp L st).2.history = st.history ++ t)
      ∧ (∀ ev ∈ (m.applyUp L st).2.trace,
          ev ∈ st.trace ∨ ∃ mg ∈ L, ev = Event.upAction mg ∧ mg.Up ≠ none) := by
  intro L
  induction L with
  | nil =>
    intro st
    refine ⟨⟨rfl, rfl, rfl⟩, ⟨[], by simp [Migrate.applyUp]⟩, ?_⟩
    intro ev hev
    exact Or.inl (by simpa [Migrate.applyUp] using hev)
  | cons mg rest ih =>
    intro st
    cases hup : mg.Up with
    | none =>
      have h := ih st
      simp only [Migrate.applyUp, hup]
      refine ⟨h.1, h.2.1, ?_⟩
      intro ev hev
      rcases h.2.2 ev hev with h1 | ⟨x, hx, hx2⟩
      · exact Or.inl h1
      · exact Or.inr ⟨x, List.mem_cons_of_mem _ hx, hx2⟩
    | some act =>
      cases act with
      | some e =>
        simp only [Migrate.applyUp, hup]
        refine ⟨by simp, ⟨[], by simp⟩, ?_⟩
        intro ev hev
        simp only [List.mem_append, List.mem_singleton] at hev
        rcases hev with h1 | h1
        · exact Or.inl h1
        · exact Or.inr ⟨mg, by simp, h1, by simp [hup]⟩
      | none =>
        cases h0 : st.insertFail st.history.length with
        | some e =>
          simp only [Migrate.applyUp, hup, Migrate.SetVersion, h0]
          refine ⟨by simp, ⟨[], by simp⟩, ?_⟩
          intro ev hev
          simp only [List.mem_append, List.mem_singleton] at hev
          rcases hev with h1 | h1
          · exact Or.inl h1
          · exact Or.inr ⟨mg, by simp, h1, by simp [hup]⟩
        | none =>
          simp only [Migrate.applyUp, hup, Migrate.SetVersion, h0]
          set st2 : St := { st with
            history := st.history ++ [⟨mg.Version, mg.Description, st.now⟩],
            trace := st.trace ++ [Event.upAction mg] } with hst2
          have h := ih st2
          refine ⟨h.1, ?_, ?_⟩
          · obtain ⟨t, ht⟩ := h.2.1
            exact ⟨⟨mg.Version, mg.Description, st.now⟩ :: t, by
              simp [ht, hst2]⟩
          · intro ev hev
            rcases h.2.2 ev hev with h1 | ⟨x, hx, hx2⟩
            · simp only [hst2, List.mem_append, List.mem_singleton] at h1
              rcases h1 with h2 | h2
              · exact Or.inl h2
              · exact Or.inr ⟨mg, by simp, h2, by simp [hup]⟩
            · exact Or.inr ⟨x, List.mem_cons_of_mem _ hx, hx2⟩

theorem applyDown_shape (m : Migrate) :
    ∀ (L : List (Migration × Migration)) (st : St),
      ((m.applyDown L st).2.collections = st.collections
        ∧ (m.applyDown L st).2.now = st.now
        ∧ (m.applyDown L st).2.insertFail = st.insertFail)
      ∧ (∃ t, (m.applyDown L st).2.history = st.history ++ t)
      ∧ (∀ ev ∈ (m.applyDown L st).2.trace,
          ev ∈ st.trace ∨ ∃ p ∈ L, ev = Event.downAction p.1 ∧ p.1.Down ≠ none) := by
  intro L
  induction L with
  | nil =>
    intro st
    refine ⟨⟨rfl, rfl, rfl⟩, ⟨[], by simp [Migrate.applyDown]⟩, ?_⟩
    intro ev hev
    exact Or.inl (by simpa [Migrate.applyDown] using hev)
  | cons p rest ih =>
    obtain ⟨mg, prev⟩ := p
    intro st
    cases hdn : mg.Down with
    | none =>
      have h := ih st
      simp only [Migrate.applyDown, hdn]
      refine ⟨h.1, h.2.1, ?_⟩
      intro ev hev
      rcases h.2.2 ev hev with h1 | ⟨x, hx, hx2⟩
      · exact Or.inl h1
      · exact Or.inr ⟨x, List.mem_cons_of_mem _ hx, hx2⟩
    | some act =>
      cases act with
      | some e =>
        simp only [Migrate.applyDown, hdn]
        refine ⟨by simp, ⟨[], by simp⟩, ?_⟩
        intro ev hev
        simp only [List.mem_append, List.mem_singleton] at hev
        rcases hev with h1 | h1
        · exact Or.inl h1
        · exact Or.inr ⟨(mg, prev), by simp, h1, by simp [hdn]⟩
      | none =>
        cases h0 : st.insertFail st.history.length with
        | some e =>
          simp only [Migrate.applyDown, hdn, Migrate.SetVersion, h0]
          refine ⟨by simp, ⟨[], by simp⟩, ?_⟩
          intro ev hev
          simp only [List.mem_append, List.mem_singleton] at hev
          rcases hev with h1 | h1
          · exact Or.inl h1
          · exact Or.inr ⟨(mg, prev), by simp, h1, by simp [hdn]⟩
        | none =>
          simp only [Migrate.applyDown, hdn, Migrate.SetVersion, h0]
          set st2 : St := { st with
            history := st.history ++ [⟨prev.Version, prev.Description, st.now⟩],
            trace := st.trace ++ [Event.downAction mg] } with hst2
          have h := ih st2
          refine ⟨h.1, ?_, ?_⟩
          · obtain ⟨t, ht⟩ := h.2.1
            exact ⟨⟨prev.Version, prev.Description, st.now⟩ :: t, by
              simp [ht, hst2]⟩
          · intro ev hev
            rcases h.2.2 ev hev with h1 | ⟨x, hx, hx2⟩
            · simp only [hst2, List.mem_append, List.mem_singleton] at h1
              rcases h1 with h2 | h2
              · exact Or.inl h2
              · exact Or.inr ⟨(mg, prev), by simp, h2, by simp [hdn]⟩
            · exact Or.inr ⟨x, List.mem_cons_of_mem _ hx, hx2⟩

/-! ### Up and Down as batch runs -/

theorem Up_eq (m : Migrate) (n : Int) (st : St) :
    m.Up n st
      = m.applyUp (((migrationSort m.migrations).filter
          (eligUp (latestOf st.history).1)).take (clampSteps n m.migrations.length))
        (m.ensureHistory st) := by
  unfold Migrate.Up
  rw [Version_eq]
  exact upGo_eq m _ _ _ _

theorem Down_eq (m : Migrate) (n : Int) (st : St) :
    m.Down n st
      = m.applyDown ((((withPrev (migrationSort m.migrations)).reverse).filter
          (eligDown (latestOf st.history).1)).take (clampSteps n m.migrations.length))
        (m.ensureHistory st) := by
  unfold Migrate.Down
  rw [Version_eq]
  exact downGo_eq m _ _ _ _

theorem insertSorted_perm (mg : Migration) :
    ∀ L : List Migration, (insertSorted mg L).Perm (mg :: L) := by
  intro L
  induction L with
  | nil => simp [insertSorted]
  | cons x rest ih =>
    unfold insertSorted
    split
    · exact (ih.cons x).trans (List.Perm.swap mg x rest)
    · exact List.Perm.refl _

theorem migrationSort_perm : ∀ ms : List Migration, (migrationSort ms).Perm ms := by
  intro ms
  induction ms with
  | nil => simp [migrationSort]
  | cons mg rest ih =>
    exact (insertSorted_perm mg (migrationSort rest)).trans (ih.cons mg)

theorem mem_migrationSort (x : Migration) (ms : List Migration) :
    x ∈ migrationSort ms ↔ x ∈ ms :=
  (migrationSort_perm ms).mem_iff

theorem length_migrationSort (ms : List Migration) :
    (migrationSort ms).length = ms.length :=
  (migrationSort_perm ms).length_eq

theorem insertSorted_pairwise (mg : Migration) :
    ∀ L : List Migration, L.Pairwise (fun a b => a.Version ≤ b.Version) →
      (insertSorted mg L).Pairwise (fun a b => a.Version ≤ b.Version) := by
  intro L
  induction L with
  | nil => intro _; simp [insertSorted]
  | cons x rest ih =>
    intro h
    rcases List.pairwise_cons.mp h with ⟨hx, hrest⟩
    unfold insertSorted
    by_cases hlt : x.Version < mg.Version
    · rw [if_pos hlt]
      refine List.pairwise_cons.mpr ⟨?_, ih hrest⟩
      intro y hy
      rcases List.mem_cons.mp ((insertSorted_perm mg rest).mem_iff.mp hy) with h1 | h1
      · subst h1; omega
      · exact hx y h1
    · rw [if_neg hlt]
      refine List.pairwise_cons.mpr ⟨?_, h⟩
      intro y hy
      rcases List.mem_cons.mp hy with h1 | h1
      · subst h1; omega
      · have := hx y h1
        omega

theorem migrationSort_pairwise (ms : List Migration) :
    (migrationSort ms).Pairwise (fun a b => a.Version ≤ b.Version) := by
  induction ms with
  | nil => simp [migrationSort]
  | cons mg rest ih => exact insertSorted_pairwise mg _ ih

theorem upAction_mem_ensureHistory (m : Migrate) (st : St) (mg : Migration)
    (h : Event.upAction mg ∈ (m.ensureHistory st).trace) :
    Event.upAction mg ∈ st.trace := by
  unfold Migrate.ensureHistory Migrate.createCollectionIfNotExist at h
  revert h
  split
  · exact id
  · intro h
    rcases List.mem_append.mp h with h1 | h1
    · exact h1
    · simp at h1

theorem downAction_mem_ensureHistory (m : Migrate) (st : St) (mg : Migration)
    (h : Event.downAction mg ∈ (m.ensureHistory st).trace) :
    Event.downAction mg ∈ st.trace := by
  unfold Migrate.ensureHistory Migrate.createCollectionIfNotExist at h
  revert h
  split
  · exact id
  · intro h
    rcases List.mem_append.mp h with h1 | h1
    · exact h1
    · simp at h1

/-! ### The claims -/

/-- C1: for every registry and current version `v` as reported by
`Version`, `Up n` invokes exactly the forward actions of the migrations
whose version is strictly greater than `v` and whose forward action is
non-nil (the `eligUp` filter over the sorted registry), in ascending
version order, and after each successful action appends exactly one
version record carrying that migration's version and description
(`upRecord`); it stops after the clamped step count or when the registry
is exhausted (the `take`).  Success of the invoked actions and of the
record inserts is assumed. -/
theorem up_runs_eligible_batch (m : Migrate) (n : Int) (st : St)
    (K : List Migration)
    (hK : K = ((migrationSort m.migrations).filter
        (eligUp (latestOf st.history).1)).take (clampSteps n m.migrations.length))
    (hacts : ∀ mg ∈ K, mg.Up = some none)
    (hins : ∀ j, st.insertFail j = none) :
    m.Up n st = (none,
      { m.ensureHistory st with
          history := st.history ++ K.map (upRecord st.now),
          trace := (m.ensureHistory st).trace ++ K.map Event.upAction })
    ∧ K.Pairwise (fun a b => a.Version ≤ b.Version) := by
  constructor
  · rw [Up_eq, ← hK,
      applyUp_success m K _ hacts
        (by intro j hj
            rw [ensureHistory_insertFail]
            exact hins _)]
    simp only [ensureHistory_history, ensureHistory_now]
  · subst hK
    exact List.Pairwise.sublist
      ((List.take_sublist _ _).trans (List.filter_sublist _))
      (migrationSort_pairwise m.migrations)

/-- Witness for C1 on the out-of-order registry `[mgTwo, mgOne]` over an
empty database with `AllAvailable`. -/
theorem up_runs_eligible_batch_witness :
    sampleM.Up AllAvailable sampleSt = (none,
      { sampleM.ensureHistory sampleSt with
          history := sampleSt.history ++ [mgOne, mgTwo].map (upRecord sampleSt.now),
          trace := (sampleM.ensureHistory sampleSt).trace
            ++ [mgOne, mgTwo].map Event.upAction })
    ∧ List.Pairwise (fun a b : Migration => a.Version ≤ b.Version) [mgOne, mgTwo] :=
  up_runs_eligible_batch sampleM AllAvailable sampleSt [mgOne, mgTwo]
    (by decide) (by decide) (fun _ => rfl)

/-- C2: for every registry and current version `v` as reported by
`Version`, `Down n` scans the sorted registry descending (the `reverse`),
applies exactly the migrations whose version is at most `v` and whose
backward action is non-nil (the `eligDown` filter), truncated to the
clamped budget, and after each successful backward action appends a record
carrying the version and description of the immediately preceding
migration in the sorted list (`downRecord` over the `withPrev` pairing);
the second conjunct shows the pairing is with the predecessor, the zero
value `Migration{Version: 0}` (version 0, empty description) at index 0.
Success of the invoked actions and inserts is assumed. -/
theorem down_runs_eligible_batch (m : Migrate) (n : Int) (st : St)
    (K : List (Migration × Migration))
    (hK : K = (((withPrev (migrationSort m.migrations)).reverse).filter
        (eligDown (latestOf st.history).1)).take (clampSteps n m.migrations.length))
    (hacts : ∀ p ∈ K, p.1.Down = some none)
    (hins : ∀ j, st.insertFail j = none) :
    m.Down n st = (none,
      { m.ensureHistory st with
          history := st.history ++ K.map (downRecord st.now),
          trace := (m.ensureHistory st).trace
            ++ K.map (fun p => Event.downAction p.1) })
    ∧ (∀ (ms : List Migration) (i : Nat) (p : Migration × Migration),
        (withPrev ms)[i]? = some p →
          ms[i]? = some p.1
          ∧ (i = 0 → p.2 = ⟨0, "", none, none⟩)
          ∧ (∀ j, i = j + 1 → ms[j]? = some p.2)) := by
  constructor
  · rw [Down_eq, ← hK,
      applyDown_success m K _ hacts
        (by intro j hj
            rw [ensureHistory_insertFail]
            exact hins _)]
    simp only [ensureHistory_history, ensureHistory_now]
  · intro ms i p hp
    rw [withPrev, List.getElem?_zip_eq_some] at hp
    refine ⟨hp.1, ?_, ?_⟩
    · intro hi
      subst hi
      have := hp.2
      simp at this
      exact this.symm
    · intro j hj
      subst hj
      have := hp.2
      simpa using this

/-- Witness for C2: `Down AllAvailable` from version 2 on the registry
`[mgTwo, mgOne]` undoes both migrations, recording version 1 (description
of migration 1) and then version 0 with empty description. -/
theorem down_runs_eligible_batch_witness :
    sampleM.Down AllAvailable sampleStV2 = (none,
      { sampleM.ensureHistory sampleStV2 with
          history := sampleStV2.history
            ++ [(mgTwo, mgOne), (mgOne, ⟨0, "", none, none⟩)].map (downRecord sampleStV2.now),
          trace := (sampleM.ensureHistory sampleStV2).trace
            ++ [(mgTwo, mgOne), (mgOne, ⟨0, "", none, none⟩)].map
              (fun p => Event.downAction p.1) })
    ∧ (∀ (ms : List Migration) (i : Nat) (p : Migration × Migration),
        (withPrev ms)[i]? = some p →
          ms[i]? = some p.1
          ∧ (i = 0 → p.2 = ⟨0, "", none, none⟩)
          ∧ (∀ j, i = j + 1 → ms[j]? = some p.2)) :=
  down_runs_eligible_batch sampleM AllAvailable sampleStV2
    [(mgTwo, mgOne), (mgOne, ⟨0, "", none, none⟩)]
    (by decide) (by decide) (fun _ => rfl)

/-- C5: on a history collection containing no records, `Version` returns
version 0, empty description and no error: the no-document outcome is the
distinguished `(0, "", nil)` result, not a failure. -/
theorem version_of_empty_history (m : Migrate) (st : St) (h : st.history = []) :
    (m.Version st).1 = Except.ok (0, "") := by
  rw [Version_eq, h]
  rfl

/-- Witness for C5 on a fresh database. -/
theorem version_of_empty_history_witness :
    (sampleM.Version sampleSt).1 = Except.ok (0, "") :=
  version_of_empty_history sampleM sampleSt rfl

/-- C7: `Up n` with `n ≤ 0` (including `AllAvailable = -1`) or with `n`
larger than the registry size behaves identically to
`Up len(migrations)`; likewise for `Down`. -/
theorem clamp_equivalences (m : Migrate) (n : Int) (st : St)
    (h : n ≤ 0 ∨ n > (m.migrations.length : Int)) :
    m.Up n st = m.Up (m.migrations.length : Int) st
    ∧ m.Down n st = m.Down (m.migrations.length : Int) st
    ∧ m.Up AllAvailable st = m.Up (m.migrations.length : Int) st
    ∧ m.Down AllAvailable st = m.Down (m.migrations.length : Int) st := by
  have hc : ∀ k : Int, (k ≤ 0 ∨ k > (m.migrations.length : Int)) →
      clampSteps k m.migrations.length = m.migrations.length := by
    intro k hk
    unfold clampSteps
    rw [if_pos hk]
  have hlen : clampSteps (m.migrations.length : Int) m.migrations.length
      = m.migrations.length := by
    unfold clampSteps
    by_cases h0 : (m.migrations.length : Int) ≤ 0
      ∨ (m.migrations.length : Int) > (m.migrations.length : Int)
    · rw [if_pos h0]
    · rw [if_neg h0]
      simp
  have hall : AllAvailable ≤ 0 ∨ AllAvailable > (m.migrations.length : Int) :=
    Or.inl (by norm_num [AllAvailable])
  unfold Migrate.Up Migrate.Down
  rw [hc n h, hc AllAvailable hall, hlen]
  exact ⟨rfl, rfl, rfl, rfl⟩

/-- Witness for C7 with a negative step count. -/
theorem clamp_equivalences_witness :
    sampleM.Up (-5) sampleSt = sampleM.Up (sampleM.migrations.length : Int) sampleSt
    ∧ sampleM.Down (-5) sampleSt = sampleM.Down (sampleM.migrations.length : Int) sampleSt
    ∧ sampleM.Up AllAvailable sampleSt
        = sampleM.Up (sampleM.migrations.length : Int) sampleSt
    ∧ sampleM.Down AllAvailable sampleSt
        = sampleM.Down (sampleM.migrations.length : Int) sampleSt :=
  clamp_equivalences sampleM (-5) sampleSt (Or.inl (by norm_num))

/-- C8: when no migration is eligible (each is at or below the current
version, or has a nil forward action), `Up n` performs no action, appends
no record, returns success, and a repeated call leaves the history
identical; the only state change is the idempotent bootstrap. -/
theorem up_noop_when_none_eligible (m : Migrate) (n : Int) (st : St)
    (h : ∀ mg ∈ m.migrations, mg.Version ≤ (latestOf st.history).1 ∨ mg.Up = none) :
    m.Up n st = (none, m.ensureHistory st)
    ∧ (m.Up n st).2.history = st.history
    ∧ (m.Up n (m.Up n st).2).2.history = st.history := by
  have key : ∀ st' : St, latestOf st'.history = latestOf st.history →
      m.Up n st' = (none, m.ensureHistory st') := by
    intro st' hl
    rw [Up_eq]
    have hfil : (migrationSort m.migrations).filter
        (eligUp (latestOf st'.history).1) = [] := by
      rw [hl]
      apply List.filter_eq_nil_iff.mpr
      intro mg hmg
      rcases h mg ((mem_migrationSort mg m.migrations).mp hmg) with h1 | h1
      · simp [eligUp, Nat.not_lt.mpr h1]
      · simp [eligUp, h1]
    rw [hfil]
    simp [Migrate.applyUp]
  have h1 := key st rfl
  refine ⟨h1, ?_, ?_⟩
  · rw [h1]
    exact ensureHistory_history m st
  · rw [h1]
    have h2 := key (m.ensureHistory st) (by rw [ensureHistory_history])
    rw [h2, ensureHistory_history, ensureHistory_history]

/-- Witness for C8 at version 2, where both registry migrations are
already applied. -/
theorem up_noop_when_none_eligible_witness :
    sampleM.Up 1 sampleStV2 = (none, sampleM.ensureHistory sampleStV2)
    ∧ (sampleM.Up 1 sampleStV2).2.history = sampleStV2.history
    ∧ (sampleM.Up 1 (sampleM.Up 1 sampleStV2).2).2.history = sampleStV2.history :=
  up_noop_when_none_eligible sampleM 1 sampleStV2 (by decide)

/-- C9: `SetVersion` unconditionally appends exactly one record with the
given version, description and the current clock, independently of the
registry (second conjunct) and without invoking any action (the state is
otherwise untouched); on a previously empty history, `Version` then
reports exactly that version and description. -/
theorem setVersion_unconditional_append (m : Migrate) (version : Nat)
    (description : String) (st : St)
    (h : st.insertFail st.history.length = none) :
    m.SetVersion version description st
      = (none, { st with history := st.history ++ [⟨version, description, st.now⟩] })
    ∧ (∀ L : List Migration,
        Migrate.SetVersion { m with migrations := L } version description st
          = m.SetVersion version description st)
    ∧ (st.history = [] →
        (m.Version (m.SetVersion version description st).2).1
          = Except.ok (version, description)) := by
  have h1 : m.SetVersion version description st
      = (none, { st with history := st.history ++ [⟨version, description, st.now⟩] }) := by
    unfold Migrate.SetVersion
    rw [h]
  refine ⟨h1, fun L => rfl, ?_⟩
  intro hemp
  rw [h1, Version_eq]
  simp [latestOf, hemp]

/-- Witness for C9: the spec scenario `SetVersion(5, "manual")` on an
empty database. -/
theorem setVersion_unconditional_append_witness :
    sampleM.SetVersion 5 "manual" sampleSt
      = (none, { sampleSt with
          history := sampleSt.history ++ [⟨5, "manual", sampleSt.now⟩] })
    ∧ (∀ L : List Migration,
        Migrate.SetVersion { sampleM with migrations := L } 5 "manual" sampleSt
          = sampleM.SetVersion 5 "manual" sampleSt)
    ∧ (sampleSt.history = [] →
        (sampleM.Version (sampleM.SetVersion 5 "manual" sampleSt).2).1
          = Except.ok (5, "manual")) :=
  setVersion_unconditional_append sampleM 5 "manual" sampleSt rfl

theorem kindFilter_eq (c : collectionSpecification) :
    (c.Type'.length == 0 || c.Type' == "collection")
      = decide (c.Type' = "" ∨ c.Type' = "collection") := by
  by_cases h1 : c.Type' = ""
  · simp [h1]
  · by_cases h2 : c.Type' = "collection"
    · simp [h1, h2]
    · have hlen : c.Type'.length ≠ 0 := by
        intro h0
        apply h1
        apply String.ext
        have hd : c.Type'.data.length = 0 := by
          rw [String.length_data]
          exact h0
        simpa using List.length_eq_zero.mp hd
      simp [h1, h2, hlen]

/-- C10: `getCollections` counts only entries whose kind is empty or
exactly `"collection"`; consequently, when every entry bearing the
configured history-collection name has some other kind (such as a view),
`isCollectionExist` reports the collection as absent and the bootstrap
performed by `Version` issues a `create` command for that name. -/
theorem nonCollection_kind_not_counted (m : Migrate) (st : St)
    (hv : ∀ c ∈ st.collections, c.Name = m.migrationsCollection →
        c.Type' ≠ "" ∧ c.Type' ≠ "collection") :
    m.getCollections st
      = st.collections.filter (fun c => decide (c.Type' = "" ∨ c.Type' = "collection"))
    ∧ m.isCollectionExist m.migrationsCollection st = false
    ∧ Event.createCollection m.migrationsCollection ∈ (m.Version st).2.trace := by
  have h1 : m.getCollections st = st.collections.filter
      (fun c => decide (c.Type' = "" ∨ c.Type' = "collection")) := by
    unfold Migrate.getCollections
    exact List.filter_congr (fun c _ => kindFilter_eq c)
  have h2 : m.isCollectionExist m.migrationsCollection st = false := by
    unfold Migrate.isCollectionExist
    rw [h1]
    rw [List.any_eq_false]
    intro c hc
    rcases List.mem_filter.mp hc with ⟨hmem, hkind⟩
    intro hbeq
    have hname : c.Name = m.migrationsCollection :=
      (eq_of_beq hbeq).symm
    rcases hv c hmem hname with ⟨ha, hb⟩
    rcases of_decide_eq_true hkind with h3 | h3
    · exact ha h3
    · exact hb h3
  refine ⟨h1, h2, ?_⟩
  rw [Version_eq]
  unfold Migrate.ensureHistory Migrate.createCollectionIfNotExist
  rw [if_neg (by rw [h2]; simp)]
  simp

/-- Witness for C10 on a database holding a view named `migrations`. -/
theorem nonCollection_kind_not_counted_witness :
    sampleM.getCollections viewSt
      = viewSt.collections.filter
          (fun c => decide (c.Type' = "" ∨ c.Type' = "collection"))
    ∧ sampleM.isCollectionExist sampleM.migrationsCollection viewSt = false
    ∧ Event.createCollection sampleM.migrationsCollection
        ∈ (sampleM.Version viewSt).2.trace :=
  nonCollection_kind_not_counted sampleM viewSt (by decide)

/-- C6: a migration lacking a forward action is never invoked by `Up`
(every forward invocation in the final trace is of a migration with a
non-nil action), likewise for `Down` and backward actions; and the step
budget is spent only on actually applied migrations, in both directions:
the number of new records is the minimum of the clamped budget and the
number of eligible migrations, where eligibility already excludes nil
forward actions for `Up` (third conjunct) and nil backward actions for
`Down` (fourth conjunct). -/
theorem nil_action_never_invoked (m : Migrate) (n : Int) (st : St) :
    (∀ mg, Event.upAction mg ∈ (m.Up n st).2.trace →
        Event.upAction mg ∈ st.trace ∨ mg.Up ≠ none)
    ∧ (∀ mg, Event.downAction mg ∈ (m.Down n st).2.trace →
        Event.downAction mg ∈ st.trace ∨ mg.Down ≠ none)
    ∧ ((∀ j, st.insertFail j = none) →
       (∀ mg ∈ ((migrationSort m.migrations).filter
            (eligUp (latestOf st.history).1)).take (clampSteps n m.migrations.length),
          mg.Up = some none) →
       (m.Up n st).2.history.length
         = st.history.length
           + min (clampSteps n m.migrations.length)
               ((migrationSort m.migrations).filter
                 (eligUp (latestOf st.history).1)).length)
    ∧ ((∀ j, st.insertFail j = none) →
       (∀ p ∈ (((withPrev (migrationSort m.migrations)).reverse).filter
            (eligDown (latestOf st.history).1)).take (clampSteps n m.migrations.length),
          p.1.Down = some none) →
       (m.Down n st).2.history.length
         = st.history.length
           + min (clampSteps n m.migrations.length)
               (((withPrev (migrationSort m.migrations)).reverse).filter
                 (eligDown (latestOf st.history).1)).length) := by
  refine ⟨?_, ?_, ?_, ?_⟩
  · intro mg hmem
    rw [Up_eq] at hmem
    rcases (applyUp_shape m _ _).2.2 _ hmem with h1 | ⟨x, _hx, hev, hxup⟩
    · exact Or.inl (upAction_mem_ensureHistory m st mg h1)
    · right
      have hmgx : mg = x := by simpa [Event.upAction.injEq] using hev
      rw [hmgx]
      exact hxup
  · intro mg hmem
    rw [Down_eq] at hmem
    rcases (applyDown_shape m _ _).2.2 _ hmem with h1 | ⟨p, _hp, hev, hpdn⟩
    · exact Or.inl (downAction_mem_ensureHistory m st mg h1)
    · right
      have hmgp : mg = p.1 := by simpa [Event.downAction.injEq] using hev
      rw [hmgp]
      exact hpdn
  · intro hins hacts
    rw [Up_eq, applyUp_success m _ _ hacts
      (by intro j hj
          rw [ensureHistory_insertFail]
          exact hins _)]
    simp [ensureHistory_history, List.length_take]
  · intro hins hacts
    rw [Down_eq, applyDown_success m _ _ hacts
      (by intro j hj
          rw [ensureHistory_insertFail]
          exact hins _)]
    simp [ensureHistory_history, List.length_take]

/-- Witness for C6: on a registry whose version-3 migration has a nil
forward action, `Up 1` from version 0 spends its single step on the
eligible migration; on a registry whose version-2 migration has a nil
backward action, `Down 1` from version 2 spends its single step on
migration 1. -/
theorem nil_action_never_invoked_witness :
    ((sampleMSkip.Up 1 sampleSt).2.history.length
      = sampleSt.history.length
        + min (clampSteps 1 sampleMSkip.migrations.length)
            ((migrationSort sampleMSkip.migrations).filter
              (eligUp (latestOf sampleSt.history).1)).length)
    ∧ ((sampleMSkipDown.Down 1 sampleStV2).2.history.length
      = sampleStV2.history.length
        + min (clampSteps 1 sampleMSkipDown.migrations.length)
            (((withPrev (migrationSort sampleMSkipDown.migrations)).reverse).filter
              (eligDown (latestOf sampleStV2.history).1)).length) :=
  ⟨(nil_action_never_invoked sampleMSkip 1 sampleSt).2.2.1 (fun _ => rfl) (by decide),
   (nil_action_never_invoked sampleMSkipDown 1 sampleStV2).2.2.2
     (fun _ => rfl) (by decide)⟩

/-- C4: a batch never removes previously appended records (conjuncts 1-2);
and if the action or the record append of the step after a successfully
applied eligible prefix `K1` fails with `e`, the call returns exactly `e`,
exactly the steps of `K1` have appended records (the failing step has
none, though its action invocation is traced), and `Version` afterwards
reports the last successfully recorded step (conjuncts 3-4, for Up and
Down respectively). -/
theorem up_down_first_error (m : Migrate) (n : Int) (st : St) :
    (∃ t, (m.Up n st).2.history = st.history ++ t)
    ∧ (∃ t, (m.Down n st).2.history = st.history ++ t)
    ∧ (∀ (K1 : List Migration) (mg : Migration) (K2 : List Migration) (e : Err),
        ((migrationSort m.migrations).filter (eligUp (latestOf st.history).1)).take
            (clampSteps n m.migrations.length) = K1 ++ mg :: K2 →
        (∀ x ∈ K1, x.Up = some none) →
        (∀ j, j < K1.length → st.insertFail (st.history.length + j) = none) →
        (mg.Up = some (some e)
          ∨ (mg.Up = some none ∧ st.insertFail (st.history.length + K1.length) = some e)) →
        m.Up n st = (some e,
          { m.ensureHistory st with
              history := st.history ++ K1.map (upRecord st.now),
              trace := (m.ensureHistory st).trace ++ K1.map Event.upAction
                ++ [Event.upAction mg] })
        ∧ (m.Version (m.Up n st).2).1
            = Except.ok (latestOf (st.history ++ K1.map (upRecord st.now))))
    ∧ (∀ (K1 : List (Migration × Migration)) (p : Migration × Migration)
        (K2 : List (Migration × Migration)) (e : Err),
        (((withPrev (migrationSort m.migrations)).reverse).filter
            (eligDown (latestOf st.history).1)).take (clampSteps n m.migrations.length)
          = K1 ++ p :: K2 →
        (∀ x ∈ K1, x.1.Down = some none) →
        (∀ j, j < K1.length → st.insertFail (st.history.length + j) = none) →
        (p.1.Down = some (some e)
          ∨ (p.1.Down = some none
              ∧ st.insertFail (st.history.length + K1.length) = some e)) →
        m.Down n st = (some e,
          { m.ensureHistory st with
              history := st.history ++ K1.map (downRecord st.now),
              trace := (m.ensureHistory st).trace
                ++ K1.map (fun q => Event.downAction q.1)
                ++ [Event.downAction p.1] })
        ∧ (m.Version (m.Down n st).2).1
            = Except.ok (latestOf (st.history ++ K1.map (downRecord st.now)))) := by
  refine ⟨?_, ?_, ?_, ?_⟩
  · obtain ⟨t, ht⟩ := (applyUp_shape m
      (((migrationSort m.migrations).filter (eligUp (latestOf st.history).1)).take
        (clampSteps n m.migrations.length)) (m.ensureHistory st)).2.1
    exact ⟨t, by rw [Up_eq, ht, ensureHistory_history]⟩
  · obtain ⟨t, ht⟩ := (applyDown_shape m
      ((((withPrev (migrationSort m.migrations)).reverse).filter
        (eligDown (latestOf st.history).1)).take
          (clampSteps n m.migrations.length)) (m.ensureHistory st)).2.1
    exact ⟨t, by rw [Down_eq, ht, ensureHistory_history]⟩
  · intro K1 mg K2 e hK hacts hins hfail
    have hrun := applyUp_failure m K1 mg K2 (m.ensureHistory st) e hacts
      (by intro j hj
          rw [ensureHistory_insertFail, ensureHistory_history]
          exact hins j hj)
      (by rcases hfail with hf | ⟨hf, hrest⟩
          · exact Or.inl hf
          · refine Or.inr ⟨hf, ?_⟩
            rw [ensureHistory_insertFail, ensureHistory_history]
            exact hrest)
    have hup : m.Up n st = (some e,
        { m.ensureHistory st with
            history := st.history ++ K1.map (upRecord st.now),
            trace := (m.ensureHistory st).trace ++ K1.map Event.upAction
              ++ [Event.upAction mg] }) := by
      rw [Up_eq, hK, hrun]
      simp only [ensureHistory_history, ensureHistory_now]
    refine ⟨hup, ?_⟩
    rw [hup, Version_eq]
  · intro K1 p K2 e hK hacts hins hfail
    have hrun := applyDown_failure m K1 p K2 (m.ensureHistory st) e hacts
      (by intro j hj
          rw [ensureHistory_insertFail, ensureHistory_history]
          exact hins j hj)
      (by rcases hfail with hf | ⟨hf, hrest⟩
          · exact Or.inl hf
          · refine Or.inr ⟨hf, ?_⟩
            rw [ensureHistory_insertFail, ensureHistory_history]
            exact hrest)
    have hdown : m.Down n st = (some e,
        { m.ensureHistory st with
            history := st.history ++ K1.map (downRecord st.now),
            trace := (m.ensureHistory st).trace
              ++ K1.map (fun q => Event.downAction q.1)
              ++ [Event.downAction p.1] }) := by
      rw [Down_eq, hK, hrun]
      simp only [ensureHistory_history, ensureHistory_now]
    refine ⟨hdown, ?_⟩
    rw [hdown, Version_eq]

/-- Witness for C4: the second migration's forward action fails with
"boom" after the first step succeeded; only the first step is recorded and
`Version` reports it. -/
theorem up_down_first_error_witness :
    sampleMF.Up 5 sampleSt = (some "boom",
      { sampleMF.ensureHistory sampleSt with
          history := sampleSt.history ++ [mgOne].map (upRecord sampleSt.now),
          trace := (sampleMF.ensureHistory sampleSt).trace
            ++ [mgOne].map Event.upAction ++ [Event.upAction mgFourBoom] })
    ∧ (sampleMF.Version (sampleMF.Up 5 sampleSt).2).1
        = Except.ok (latestOf (sampleSt.history ++ [mgOne].map (upRecord sampleSt.now))) :=
  (up_down_first_error sampleMF 5 sampleSt).2.2.1 [mgOne] mgFourBoom [] "boom"
    (by decide) (by decide) (fun _ _ => rfl) (Or.inl rfl)

/-- C3 counterexample: on the registry `[mgOne]` whose single migration
has both actions defined, starting from version 1 (so migration 1 is
already applied), `Up 1` applies nothing, yet `Down 1` undoes migration 1
and records version 0: the round trip does not restore the pre-`Up`
version even though every applied migration has both actions defined. -/
theorem roundtrip_counterexample :
    mgOne.Up = some none ∧ mgOne.Down = some none
    ∧ sampleM1.migrations = [mgOne]
    ∧ (sampleM1.Version sampleStV1).1 = Except.ok (1, "one")
    ∧ (sampleM1.Up 1 sampleStV1).1 = none
    ∧ (sampleM1.Down 1 (sampleM1.Up 1 sampleStV1).2).1 = none
    ∧ (sampleM1.Version (sampleM1.Down 1 (sampleM1.Up 1 sampleStV1).2).2).1
        = Except.ok (0, "") := by
  exact ⟨rfl, rfl, rfl, rfl, rfl, rfl, rfl⟩

theorem sorted_split (v : Nat) :
    ∀ L : List Migration, L.Pairwise (fun a b => a.Version < b.Version) →
      L.filter (fun mg => decide (mg.Version ≤ v))
        ++ L.filter (fun mg => decide (v < mg.Version)) = L := by
  intro L
  induction L with
  | nil => intro _; simp
  | cons x rest ih =>
    intro h
    rcases List.pairwise_cons.mp h with ⟨hx, hrest⟩
    by_cases hxv : x.Version ≤ v
    · simp only [List.filter_cons]
      rw [if_pos (by simpa using hxv),
        if_neg (by simpa using Nat.not_lt.mpr hxv)]
      rw [List.cons_append, ih hrest]
    · have hvx : v < x.Version := Nat.lt_of_not_le hxv
      have hall : ∀ y ∈ rest, v < y.Version :=
        fun y hy => Nat.lt_trans hvx (hx y hy)
      simp only [List.filter_cons]
      rw [if_neg (by simpa using hxv), if_pos (by simpa using hvx)]
      have h1 : rest.filter (fun mg => decide (mg.Version ≤ v)) = [] :=
        List.filter_eq_nil_iff.mpr
          (fun y hy => by simpa using Nat.not_le.mpr (hall y hy))
      have h2 : rest.filter (fun mg => decide (v < mg.Version)) = rest :=
        List.filter_eq_self.mpr (fun y hy => by simpa using hall y hy)
      rw [h1, h2, List.nil_append]

theorem le_getLast_of_sorted :
    ∀ (L : List Migration) (x last : Migration),
      L.Pairwise (fun a b => a.Version < b.Version) →
      L.getLast? = some last → x ∈ L → x.Version ≤ last.Version := by
  intro L
  induction L with
  | nil => intro x last _ h; simp at h
  | cons y rest ih =>
    intro x last hp hl hx
    rcases List.pairwise_cons.mp hp with ⟨hy, hrest⟩
    cases rest with
    | nil =>
      simp at hl
      rcases List.mem_singleton.mp hx with h1
      rw [h1, hl]
    | cons z rest2 =>
      rw [List.getLast?_cons_cons] at hl
      rcases List.mem_cons.mp hx with h1 | h1
      · subst h1
        have hmem : last ∈ z :: rest2 := List.mem_of_getLast?_eq_some hl
        exact Nat.le_of_lt (hy last hmem)
      · exact ih x last hrest hl h1

theorem head?_drop_eq {α : Type} :
    ∀ (j : Nat) (L : List α), (L.drop j).head? = L[j]? := by
  intro j
  induction j with
  | zero => intro L; cases L <;> simp
  | succ j ih =>
    intro L
    cases L with
    | nil => simp
    | cons a t => simpa using ih t

/-- C3 (amended): `Up n` followed immediately by `Down n` with the same
step count restores the version number reported by `Version`, under the
conditions the counterexample forces: every registry migration has both
actions defined (and succeeding) — not only the applied ones — with
strictly positive, strictly ascending versions after sorting; record
inserts succeed; the starting version is 0 or the version of some
registry migration; and `n` is positive and at most the number of
migrations above the starting version (so `Down` undoes exactly the
migrations `Up` applied, no fewer and no more). -/
theorem up_then_down_roundtrip (m : Migrate) (n : Int) (st : St)
    (hsorted : (migrationSort m.migrations).Pairwise
      (fun a b => a.Version < b.Version))
    (hpos : ∀ mg ∈ m.migrations, 0 < mg.Version)
    (hboth : ∀ mg ∈ m.migrations, mg.Up = some none ∧ mg.Down = some none)
    (hins : ∀ i, st.insertFail i = none)
    (hstart : (latestOf st.history).1 = 0
      ∨ ∃ mg ∈ m.migrations, mg.Version = (latestOf st.history).1)
    (hn : 0 < n)
    (hcount : n.toNat ≤ ((migrationSort m.migrations).filter
        (fun mg => decide ((latestOf st.history).1 < mg.Version))).length) :
    (latestOf (m.Down n (m.Up n st).2).2.history).1 = (latestOf st.history).1 := by
  set v := (latestOf st.history).1 with hv
  set ms := migrationSort m.migrations with hms
  set nt := n.toNat with hnt
  set A := ms.filter (fun mg => decide (mg.Version ≤ v)) with hA
  set B := ms.filter (fun mg => decide (v < mg.Version)) with hB
  have hsplit : A ++ B = ms := sorted_split v ms hsorted
  have hmem_ms : ∀ mg ∈ ms, mg ∈ m.migrations := by
    intro mg h
    rw [hms] at h
    exact (mem_migrationSort mg m.migrations).mp h
  have hlenms : ms.length = m.migrations.length := by
    rw [hms]
    exact length_migrationSort _
  have hABlen : A.length + B.length = ms.length := by
    rw [← hsplit, List.length_append]
  have hntpos : 1 ≤ nt := by
    rw [hnt]
    omega
  have hclamp : clampSteps n m.migrations.length = nt := by
    unfold clampSteps
    rw [if_neg, ← hnt]
    push_neg
    constructor
    · omega
    · have h2 : B.length ≤ ms.length := by omega
      omega
  have hEup : ms.filter (eligUp v) = B := by
    rw [hB]
    apply List.filter_congr
    intro mg hmg
    have hup := (hboth mg (hmem_ms mg hmg)).1
    simp [eligUp, hup]
  have hKdef : ((migrationSort m.migrations).filter
      (eligUp (latestOf st.history).1)).take (clampSteps n m.migrations.length)
      = B.take nt := by
    rw [← hms, ← hv, hEup, hclamp]
  have hupacts : ∀ mg ∈ B.take nt, mg.Up = some none := by
    intro mg h
    exact (hboth mg (hmem_ms mg
      (List.mem_of_mem_filter (List.mem_of_mem_take h)))).1
  have hUp : m.Up n st = (none,
      { m.ensureHistory st with
          history := st.history ++ (B.take nt).map (upRecord st.now),
          trace := (m.ensureHistory st).trace
            ++ (B.take nt).map Event.upAction }) := by
    rw [Up_eq, hKdef, applyUp_success m _ _ hupacts
      (by intro i hi
          rw [ensureHistory_insertFail]
          exact hins _)]
    simp only [ensureHistory_history, ensureHistory_now]
  have hKlen : (B.take nt).length = nt := by
    rw [List.length_take]
    omega
  have hKne : B.take nt ≠ [] := by
    intro h0
    rw [h0] at hKlen
    simp at hKlen
    omega
  obtain ⟨klast, hklast⟩ : ∃ x, (B.take nt).getLast? = some x := by
    cases h : (B.take nt).getLast? with
    | none => exact absurd (List.getLast?_eq_none_iff.mp h) hKne
    | some x => exact ⟨x, rfl⟩
  set v1 := klast.Version with hv1
  set stU := (m.Up n st).2 with hstUdef
  have hstUh : stU.history = st.history ++ (B.take nt).map (upRecord st.now) := by
    rw [hstUdef, hUp]
  have hlatestU : (latestOf stU.history).1 = v1 := by
    rw [hstUh]
    unfold latestOf
    rw [List.getLast?_append, List.getLast?_map, hklast]
    rfl
  have hensU : m.ensureHistory stU = stU := by
    apply ensureHistory_of_exist
    rw [hstUdef, hUp]
    exact isCollectionExist_ensureHistory m st
  have hinsU : ∀ i, stU.insertFail i = none := by
    intro i
    rw [hstUdef, hUp]
    exact (ensureHistory_insertFail m st) ▸ hins i
  set W := withPrev ms with hW
  set j := A.length with hj
  set k := j + nt with hk
  have hWlen : W.length = ms.length := by
    rw [hW]
    unfold withPrev
    rw [List.length_zip]
    simp
  have hWfst : W.map Prod.fst = ms := by
    rw [hW]
    unfold withPrev
    apply List.map_fst_zip
    simp
  have hmsdecomp : ms = (A ++ B.take nt) ++ B.drop nt := by
    rw [List.append_assoc, List.take_append_drop, hsplit]
  have hAKlen : (A ++ B.take nt).length = k := by
    rw [List.length_append, hKlen, hk, hj]
  have hmstake : ms.take k = A ++ B.take nt := by
    conv_lhs => rw [hmsdecomp]
    exact List.take_left' hAKlen
  have hmsdrop : ms.drop k = B.drop nt := by
    conv_lhs => rw [hmsdecomp]
    exact List.drop_left' hAKlen
  have hvleB : ∀ mg ∈ B, v < mg.Version := by
    intro mg h
    rw [hB] at h
    simpa using (List.mem_filter.mp h).2
  have hAle : ∀ mg ∈ A, mg.Version ≤ v := by
    intro mg h
    rw [hA] at h
    simpa using (List.mem_filter.mp h).2
  have hklast_mem : klast ∈ B :=
    List.mem_of_mem_take (List.mem_of_getLast?_eq_some hklast)
  have hBsorted : B.Pairwise (fun a b => a.Version < b.Version) := by
    rw [hB]
    exact List.Pairwise.sublist (List.filter_sublist _) hsorted
  have hKsorted : (B.take nt).Pairwise (fun a b => a.Version < b.Version) :=
    List.Pairwise.sublist (List.take_sublist _ _) hBsorted
  have hle_v1 : ∀ mg ∈ A ++ B.take nt, mg.Version ≤ v1 := by
    intro mg h
    rcases List.mem_append.mp h with h1 | h1
    · have h2 := hAle mg h1
      have h3 := hvleB klast hklast_mem
      omega
    · exact le_getLast_of_sorted (B.take nt) mg klast hKsorted hklast h1
  have hgt_v1 : ∀ mg ∈ B.drop nt, v1 < mg.Version := by
    intro mg h
    have hBsp : B = B.take nt ++ B.drop nt := (List.take_append_drop nt B).symm
    have hcross := (List.pairwise_append.mp (hBsp ▸ hBsorted)).2.2
    exact hcross klast (List.mem_of_getLast?_eq_some hklast) mg h
  have hWA : W.filter (fun p => decide (p.1.Version ≤ v1)) = W.take k := by
    conv_lhs => rw [← List.take_append_drop k W]
    rw [List.filter_append]
    have h1 : (W.take k).filter (fun p => decide (p.1.Version ≤ v1))
        = W.take k := by
      apply List.filter_eq_self.mpr
      intro p hp
      have hfst : p.1 ∈ ms.take k := by
        have hmemmap := List.mem_map_of_mem Prod.fst hp
        rw [List.map_take, hWfst] at hmemmap
        exact hmemmap
      rw [hmstake] at hfst
      simpa using hle_v1 p.1 hfst
    have h2 : (W.drop k).filter (fun p => decide (p.1.Version ≤ v1)) = [] := by
      apply List.filter_eq_nil_iff.mpr
      intro p hp
      have hfst : p.1 ∈ ms.drop k := by
        have hmemmap := List.mem_map_of_mem Prod.fst hp
        rw [List.map_drop, hWfst] at hmemmap
        exact hmemmap
      rw [hmsdrop] at hfst
      simpa using Nat.not_le.mpr (hgt_v1 p.1 hfst)
    rw [h1, h2, List.append_nil]
  have hD : W.reverse.filter (eligDown v1) = (W.take k).reverse := by
    have hcongr : W.reverse.filter (eligDown v1)
        = W.reverse.filter (fun p => decide (p.1.Version ≤ v1)) := by
      apply List.filter_congr
      intro p hp
      have hpW : p ∈ W := List.mem_reverse.mp hp
      have hfst : p.1 ∈ ms := by
        have hmemmap := List.mem_map_of_mem Prod.fst hpW
        rwa [hWfst] at hmemmap
      have hdn := (hboth p.1 (hmem_ms _ hfst)).2
      simp [eligDown, hdn]
    rw [hcongr, List.filter_reverse, hWA]
  have hkleW : k ≤ W.length := by
    rw [hWlen]
    omega
  have hWtklen : (W.take k).length = k := by
    rw [List.length_take]
    omega
  have hknt : k - nt = j := by omega
  have hK' : (W.reverse.filter (eligDown v1)).take nt
      = ((W.take k).drop j).reverse := by
    rw [hD, List.take_reverse, hWtklen, hknt]
  have hdownacts : ∀ p ∈ ((W.take k).drop j).reverse, p.1.Down = some none := by
    intro p hp
    have hpW : p ∈ W :=
      List.mem_of_mem_take (List.mem_of_mem_drop (List.mem_reverse.mp hp))
    have hfst : p.1 ∈ ms := by
      have hmemmap := List.mem_map_of_mem Prod.fst hpW
      rwa [hWfst] at hmemmap
    exact (hboth p.1 (hmem_ms _ hfst)).2
  have hDown : m.Down n stU = (none,
      { stU with
          history := stU.history
            ++ (((W.take k).drop j).reverse).map (downRecord stU.now),
          trace := stU.trace
            ++ (((W.take k).drop j).reverse).map
              (fun p => Event.downAction p.1) }) := by
    rw [Down_eq, ← hms, ← hW, hlatestU, hclamp, hK', hensU,
      applyDown_success m _ _ hdownacts
        (by intro i hi
            exact hinsU _)]
  have hjk : j < k := by omega
  have hjW : j < W.length := by omega
  set pj := W.get ⟨j, hjW⟩ with hpj
  have hWjq : W[j]? = some pj := by
    rw [hpj]
    exact List.getElem?_eq_getElem hjW
  have hK'last : (((W.take k).drop j).reverse).getLast? = some pj := by
    rw [List.getLast?_reverse, head?_drop_eq, List.getElem?_take_of_lt hjk]
    exact hWjq
  have hfinal : (m.Down n stU).2.history
      = stU.history ++ (((W.take k).drop j).reverse).map (downRecord stU.now) := by
    rw [hDown]
  have hlatestD : (latestOf (m.Down n stU).2.history).1 = pj.2.Version := by
    rw [hfinal]
    unfold latestOf
    rw [List.getLast?_append, List.getLast?_map, hK'last]
    rfl
  have hzip : ms[j]? = some pj.1
      ∧ ((⟨0, "", none, none⟩ : Migration) :: ms)[j]? = some pj.2 := by
    have h := hWjq
    rw [hW] at h
    unfold withPrev at h
    exact List.getElem?_zip_eq_some.mp h
  rw [hlatestD]
  rcases hstart with h0 | ⟨mg0, hmg0mem, hmg0v⟩
  · have hA0 : A = [] := by
      rw [hA]
      apply List.filter_eq_nil_iff.mpr
      intro mg hmg
      have hm := hpos mg (hmem_ms mg hmg)
      simp only [decide_eq_true_eq]
      omega
    have hj0 : j = 0 := by
      rw [hj, hA0]
      rfl
    have hsent : pj.2 = ⟨0, "", none, none⟩ := by
      have h2 := hzip.2
      rw [hj0] at h2
      simpa using h2.symm
    rw [hsent]
    simpa using h0.symm
  · have hmg0A : mg0 ∈ A := by
      rw [hA]
      apply List.mem_filter.mpr
      refine ⟨?_, by simp [hmg0v]⟩
      rw [hms]
      exact (mem_migrationSort mg0 m.migrations).mpr hmg0mem
    have hAne : A ≠ [] := by
      intro h0
      rw [h0] at hmg0A
      simp at hmg0A
    obtain ⟨alast, halast⟩ : ∃ x, A.getLast? = some x := by
      cases h : A.getLast? with
      | none => exact absurd (List.getLast?_eq_none_iff.mp h) hAne
      | some x => exact ⟨x, rfl⟩
    have hAsorted : A.Pairwise (fun a b => a.Version < b.Version) := by
      rw [hA]
      exact List.Pairwise.sublist (List.filter_sublist _) hsorted
    have halastv : alast.Version = v := by
      have hle1 : mg0.Version ≤ alast.Version :=
        le_getLast_of_sorted A mg0 alast hAsorted halast hmg0A
      have hle2 : alast.Version ≤ v :=
        hAle alast (List.mem_of_getLast?_eq_some halast)
      omega
    have hj1 : 1 ≤ j := by
      rw [hj]
      have := List.length_pos.mpr hAne
      omega
    have hmsj : ms[j - 1]? = some alast := by
      rw [← hsplit, List.getElem?_append_left (by omega)]
      have hgl := List.getLast?_eq_getElem? A
      rw [halast] at hgl
      rw [hj]
      exact hgl.symm
    have hpj2 : pj.2 = alast := by
      have h2 := hzip.2
      have hjsucc : j = (j - 1) + 1 := by omega
      rw [hjsucc, List.getElem?_cons_succ, hmsj] at h2
      simpa using h2.symm
    rw [hpj2, halastv]

/-- Witness for the amended C3: `Up 2` then `Down 2` from version 0 on the
two-migration registry restores version 0. -/
theorem up_then_down_roundtrip_witness :
    (latestOf (sampleM.Down 2 (sampleM.Up 2 sampleSt).2).2.history).1
      = (latestOf sampleSt.history).1 :=
  up_then_down_roundtrip sampleM 2 sampleSt (by decide) (by decide) (by decide)
    (fun _ => rfl) (Or.inl rfl) (by decide) (by decide)

end MongoMigrate
